import Mathlib

/-! A shallow embedding of the Toy-language lexer of src/Ch1/include/toy/Lexer.h,
together with a verification of the behavioural claims made about it.

Characters are modelled as integer codes (Int), with -1 playing the role of the
C EOF value; machine-int counters are modelled by Nat (they only ever grow from
zero and no claim involves overflow).  The abstract readNextLine of the
LexerBuffer subclass is modelled by the list of lines it will successively hand
to the Lexer, computed up front from the flat input; readNextLine pops the next
pending line and yields the empty string once the list is exhausted, exactly as
the pointer-walking implementation does.  Scanning loops are modelled by
fuel-indexed structural recursions whose fuel is computed from the number of
unread characters, which keeps every definition executable; fixpoint equations
are proved below and used in all the reasoning. -/

namespace ToyLexer

/-- The C EOF marker returned by getNextChar at end of input. -/
def EOF : Int := -1

/-- C isspace in the default locale: space, tab, newline, vertical tab, form
feed, carriage return; false on EOF. -/
def isspace (c : Int) : Bool :=
  decide (c = 32) || decide (c = 9) || decide (c = 10) ||
  decide (c = 11) || decide (c = 12) || decide (c = 13)

/-- C isdigit; false on EOF. -/
def isdigit (c : Int) : Bool := decide (48 ≤ c) && decide (c ≤ 57)

/-- C isalpha; false on EOF. -/
def isalpha (c : Int) : Bool :=
  (decide (65 ≤ c) && decide (c ≤ 90)) || (decide (97 ≤ c) && decide (c ≤ 122))

/-- C isalnum; false on EOF. -/
def isalnum (c : Int) : Bool := isalpha c || isdigit c

/-- Values of the Token enum (underlying int); punctuation tokens are their
character codes. -/
def tok_semicolon : Int := 59

def tok_parenthese_open : Int := 40

def tok_parenthese_close : Int := 41

def tok_bracket_open : Int := 123

def tok_bracket_close : Int := 125

def tok_sbracket_open : Int := 91

def tok_sbracket_close : Int := 93

def tok_eof : Int := -1

def tok_return : Int := -2

def tok_var : Int := -3

def tok_def : Int := -4

def tok_identifier : Int := -5

def tok_number : Int := -6

/-- Structure definition of a location in a file (struct Location).  The
shared_ptr to the filename is modelled by the string itself. -/
structure Location where
  file : String
  line : Nat
  col : Nat
  deriving DecidableEq

/-- The full mutable state of class Lexer (fields in source order), together
with the pending lines of the line source. -/
structure LexerState where
  curTok : Int
  lastLocation : Location
  identifierStr : List Int
  numVal : ℚ
  last_char : Int
  curLineNum : Nat
  curCol : Nat
  curLineBuffer : List Int
  pending : List (List Int)
  deriving DecidableEq

/-- Character codes of a Lean string (all nonnegative). -/
def strCodes (ss : String) : List Int := ss.data.map (fun c => (c.toNat : Int))

/-- Lexer getNextChar: EOF when the current line buffer is empty; otherwise
pre-increment the column, take the front character, refill the buffer from the
line source when it empties, and on a newline bump the line counter and reset
the column to zero. -/
def getNextChar (s : LexerState) : Int × LexerState :=
  match s.curLineBuffer with
  | [] => (EOF, s)
  | c :: rest =>
    let s1 := { s with curCol := s.curCol + 1, curLineBuffer := rest }
    let s2 := if rest.isEmpty then
                match s1.pending with
                | [] => s1
                | l :: ls => { s1 with curLineBuffer := l, pending := ls }
              else s1
    let s3 := if c = 10 then { s2 with curLineNum := s2.curLineNum + 1, curCol := 0 }
              else s2
    (c, s3)

/-- Unread characters still ahead of the lexer (line buffer plus pending
lines). -/
def streamOf (s : LexerState) : List Int := s.curLineBuffer ++ s.pending.flatten

/-- Number of unread characters; used as fuel for the scanning loops. -/
def remChars (s : LexerState) : Nat := (streamOf s).length

/-- Fuel-indexed whitespace-skipping loop at the top of getTok. -/
def skipWsF : Nat → LexerState → LexerState
  | 0, s => s
  | fuel + 1, s =>
    if isspace s.last_char then
      let p := getNextChar s
      skipWsF fuel { p.2 with last_char := p.1 }
    else s

/-- The whitespace-skipping loop, with sufficient fuel. -/
def skipWs (s : LexerState) : LexerState := skipWsF (remChars s + 2) s

/-- Fuel-indexed identifier-accumulation loop of getTok. -/
def identLoopF : Nat → List Int → LexerState → List Int × LexerState
  | 0, acc, s => (acc, s)
  | fuel + 1, acc, s =>
    let p := getNextChar s
    let s1 := { p.2 with last_char := p.1 }
    if isalnum p.1 ∨ p.1 = 95 then identLoopF fuel (acc ++ [p.1]) s1
    else (acc, s1)

/-- The identifier-accumulation loop, with sufficient fuel. -/
def identLoop (acc : List Int) (s : LexerState) : List Int × LexerState :=
  identLoopF (remChars s + 2) acc s

/-- std::to_string on an int value: its decimal representation, as character
codes. -/
def to_string_int (n : Int) : List Int := (toString n).data.map (fun c => (c.toNat : Int))

/-- Fuel-indexed numeric-literal loop of getTok (a do-while: the body appends
std::to_string(last_char) to numStr before advancing). -/
def numLoopF : Nat → List Int → LexerState → List Int × LexerState
  | 0, numStr, s => (numStr, s)
  | fuel + 1, numStr, s =>
    let numStr1 := numStr ++ to_string_int s.last_char
    let p := getNextChar s
    let s1 := { p.2 with last_char := p.1 }
    if isdigit p.1 ∨ p.1 = 46 then numLoopF fuel numStr1 s1
    else (numStr1, s1)

/-- The numeric-literal loop, with sufficient fuel. -/
def numLoop (s : LexerState) : List Int × LexerState := numLoopF (remChars s + 2) [] s

/-- Fuel-indexed comment-skipping loop of getTok (a do-while that stops on EOF,
newline or carriage return). -/
def commentLoopF : Nat → LexerState → LexerState
  | 0, s => s
  | fuel + 1, s =>
    let p := getNextChar s
    let s1 := { p.2 with last_char := p.1 }
    if p.1 ≠ EOF ∧ p.1 ≠ 10 ∧ p.1 ≠ 13 then commentLoopF fuel s1
    else s1

/-- The comment-skipping loop, with sufficient fuel. -/
def commentLoop (s : LexerState) : LexerState := commentLoopF (remChars s + 2) s

/-- Integer-part accumulator of the decimal parse: consume leading digits. -/
def digitsVal : List Int → ℚ → ℚ × List Int
  | [], acc => (acc, [])
  | c :: r, acc =>
    if isdigit c then digitsVal r (acc * 10 + ((c - 48 : Int) : ℚ)) else (acc, c :: r)

/-- Fractional-part accumulator of the decimal parse. -/
def fracVal : List Int → ℚ → ℚ → ℚ
  | [], _, acc => acc
  | c :: r, scale, acc =>
    if isdigit c then fracVal r (scale / 10) (acc + ((c - 48 : Int) : ℚ) * scale) else acc

/-- Modelled from libc: strtod restricted to the digit-and-dot strings this
program ever passes to it, returning the exact decimal value as a rational (the
final rounding of that mathematical value to binary64 is abstracted away; no
comparison in this file is sensitive to it).  An integer part is followed by an
optional fractional part introduced by a single dot; a second dot ends the
parse, exactly as strtod stops at the first character that cannot extend the
number. -/
def strtod (cs : List Int) : ℚ :=
  let p := digitsVal cs 0
  match p.2 with
  | 46 :: r => p.1 + fracVal r (1 / 10) 0
  | _ => p.1

/-- The first two statements of getTok: skip whitespace, then save the current
location before reading the token characters. -/
def skipAndMark (s : LexerState) : LexerState :=
  let s0 := skipWs s
  { s0 with lastLocation := ⟨s0.lastLocation.file, s0.curLineNum, s0.curCol⟩ }

/-- One pass of Lexer getTok without the comment-restart recursion: skip
whitespace, record lastLocation, then recognize one token.  A result of none
models the restart (the tail call return getTok()) after a newline-terminated
comment. -/
def getTokStep (s : LexerState) : Option Int × LexerState :=
  let s1 := skipAndMark s
  if isalpha s1.last_char then
    let p := identLoop [s1.last_char] s1
    let s2 := { p.2 with identifierStr := p.1 }
    if p.1 = strCodes "return" then (some tok_return, s2)
    else if p.1 = strCodes "def" then (some tok_def, s2)
    else if p.1 = strCodes "var" then (some tok_var, s2)
    else (some tok_identifier, s2)
  else if isdigit s1.last_char ∨ s1.last_char = 46 then
    let p := numLoop s1
    let s2 := { p.2 with numVal := strtod p.1 }
    (some tok_number, s2)
  else if s1.last_char = 35 then
    let s2 := commentLoop s1
    if s2.last_char = EOF then (some tok_eof, s2) else (none, s2)
  else if s1.last_char = EOF then (some tok_eof, s1)
  else
    let thisChar := s1.last_char
    let p := getNextChar s1
    (some thisChar, { p.2 with last_char := p.1 })

/-- Fuel-indexed getTok: iterate getTokStep over comment restarts. -/
def getTokF : Nat → LexerState → Int × LexerState
  | 0, s => (tok_eof, s)
  | fuel + 1, s =>
    match getTokStep s with
    | (some t, s1) => (t, s1)
    | (none, s1) => getTokF fuel s1

/-- Lexer getTok, with enough fuel for every comment restart (each restart
consumes at least one character). -/
def getTok (s : LexerState) : Int × LexerState := getTokF (remChars s + 2) s

/-- Lexer getNextToken: curTok = getTok(). -/
def getNextToken (s : LexerState) : LexerState :=
  let p := getTok s
  { p.2 with curTok := p.1 }

/-- Result of Lexer consume: the assert aborts the process on a mismatch,
modelled by assertionFailure. -/
inductive ConsumeResult
  | assertionFailure
  | advanced (s : LexerState)
  deriving DecidableEq

/-- Lexer consume(Token tok): assert(tok == curTok) then getNextToken(). -/
def consume (tok : Int) (s : LexerState) : ConsumeResult :=
  if tok = s.curTok then ConsumeResult.advanced (getNextToken s)
  else ConsumeResult.assertionFailure

/-- Lexer getValue: asserts curTok == tok_number; none models the assertion
failing. -/
def getValue (s : LexerState) : Option ℚ :=
  if s.curTok = tok_number then some s.numVal else none

/-- Lexer getId: asserts curTok == tok_identifier; none models the assertion
failing. -/
def getId (s : LexerState) : Option (List Int) :=
  if s.curTok = tok_identifier then some s.identifierStr else none

/-- One step of LexerBuffer readNextLine on the remaining buffer: characters up
to and including the next newline; a NUL byte stops the scan and is not
consumed, as the source tests *current before advancing past it. -/
def spanToNewline : List Int → List Int × List Int
  | [] => ([], [])
  | c :: r =>
    if c = 0 then ([], c :: r)
    else if c = 10 then ([10], r)
    else
      let p := spanToNewline r
      (c :: p.1, p.2)

/-- Fuel-indexed iteration of LexerBuffer readNextLine. -/
def linesOfF : Nat → List Int → List (List Int)
  | 0, _ => []
  | fuel + 1, cs =>
    match cs with
    | [] => []
    | _ =>
      let p := spanToNewline cs
      if p.1 = [] then [] else p.1 :: linesOfF fuel p.2

/-- All lines LexerBuffer readNextLine will ever hand to the Lexer, for a flat
input. -/
def linesOf (cs : List Int) : List (List Int) := linesOfF (cs.length + 1) cs

/-- A freshly constructed LexerBuffer over the given input: the field
initializers of class Lexer (curTok = tok_eof, last_char = a space, line and
column counters 0, the primed one-newline line buffer) and the constructor
argument lastLocation = (filename, 0, 0). -/
def initState (filename : String) (input : List Int) : LexerState :=
  { curTok := tok_eof
    lastLocation := ⟨filename, 0, 0⟩
    identifierStr := []
    numVal := 0
    last_char := 32
    curLineNum := 0
    curCol := 0
    curLineBuffer := [10]
    pending := linesOf input }

/-- State after n calls to getNextToken; for 1 ≤ n its curTok field holds the
n-th token of the input. -/
def advanceN (s : LexerState) : Nat → LexerState
  | 0 => s
  | n + 1 => getNextToken (advanceN s n)

/-- Identifier-shaped strings, [A-Za-z][A-Za-z0-9_]*. -/
def identShaped (w : List Int) : Bool :=
  match w with
  | [] => false
  | c :: r => isalpha c && r.all (fun x => isalnum x || decide (x = 95))

/-- Characters that do not end a line comment. -/
def notNl (x : Int) : Bool := decide (x ≠ 10) && decide (x ≠ 13)

/-- Fuel-indexed recognizer for inputs made only of whitespace and line
comments (a # runs to the next newline or carriage return, or to the end of
the input). -/
def wsCommentsOnlyF : Nat → List Int → Bool
  | 0, cs => cs.isEmpty
  | fuel + 1, cs =>
    match cs with
    | [] => true
    | c :: r =>
      if isspace c then wsCommentsOnlyF fuel r
      else if c = 35 then wsCommentsOnlyF fuel (r.dropWhile notNl)
      else false

/-- Inputs made only of whitespace and line comments. -/
def wsCommentsOnly (cs : List Int) : Bool := wsCommentsOnlyF (cs.length + 1) cs

/-- Shape of an unread character stream made only of whitespace and comments
(comment bodies are byte values, never the EOF marker, and contain no line
ends). -/
inductive WsCom : List Int → Prop
  | nil : WsCom []
  | ws {c : Int} {r : List Int} : isspace c → WsCom r → WsCom (c :: r)
  | comEnd {b : List Int} : (∀ x ∈ b, 0 ≤ x ∧ x ≠ 10 ∧ x ≠ 13) → WsCom (35 :: b)
  | comNl {b : List Int} {t : Int} {r : List Int} :
      (∀ x ∈ b, 0 ≤ x ∧ x ≠ 10 ∧ x ≠ 13) → (t = 10 ∨ t = 13) → WsCom r →
      WsCom (35 :: (b ++ t :: r))

/-- Well-formedness of the line bookkeeping: pending lines are never empty
(LexerBuffer returns the empty string only at the end of the buffer, which the
Lexer takes as end of input), and an empty line buffer means the source is
exhausted. -/
def StateInv (s : LexerState) : Prop :=
  (∀ l ∈ s.pending, l ≠ []) ∧ (s.curLineBuffer = [] → s.pending = [])

instance (s : LexerState) : Decidable (StateInv s) :=
  inferInstanceAs (Decidable (_ ∧ _))

/-! Character-class facts. -/

lemma isspace_EOF : isspace EOF = false := rfl

lemma isalpha_props {c : Int} (h : isalpha c = true) :
    0 ≤ c ∧ c ≠ 10 ∧ c ≠ 0 ∧ isspace c = false ∧ c ≠ 46 ∧ c ≠ 35 ∧ c ≠ EOF := by
  simp only [isalpha, Bool.or_eq_true, Bool.and_eq_true, decide_eq_true_eq] at h
  simp only [isspace, EOF, Bool.eq_false_iff, ne_eq, Bool.or_eq_true, decide_eq_true_eq]
  omega

lemma isalpha_not_space {c : Int} (h : isalpha c = true) : isspace c = false :=
  (isalpha_props h).2.2.2.1

lemma identChar_props {c : Int} (h : (isalnum c || decide (c = 95)) = true) :
    0 ≤ c ∧ c ≠ 10 ∧ c ≠ 0 := by
  simp only [isalnum, isalpha, isdigit, Bool.or_eq_true, Bool.and_eq_true,
    decide_eq_true_eq] at h
  omega

/-! Facts about getNextChar. -/

lemma getNextChar_empty {s : LexerState} (h : s.curLineBuffer = []) :
    getNextChar s = (EOF, s) := by
  simp [getNextChar, h]

lemma getNextChar_fst {s : LexerState} {c : Int} {rest : List Int}
    (h : s.curLineBuffer = c :: rest) : (getNextChar s).1 = c := by
  simp only [getNextChar, h]

/-- Buffer and pending lines after a consuming character advance: either the
rest of the line is nonempty and pending is untouched, or the line ran out and
the next pending line (if any) was pulled in. -/
lemma getNextChar_buf_pen {s : LexerState} {c : Int} {rest : List Int}
    (h : s.curLineBuffer = c :: rest) :
    (rest ≠ [] ∧ (getNextChar s).2.curLineBuffer = rest ∧ (getNextChar s).2.pending = s.pending) ∨
    (rest = [] ∧ s.pending = [] ∧
      (getNextChar s).2.curLineBuffer = [] ∧ (getNextChar s).2.pending = []) ∨
    (∃ l ls, rest = [] ∧ s.pending = l :: ls ∧
      (getNextChar s).2.curLineBuffer = l ∧ (getNextChar s).2.pending = ls) := by
  obtain ⟨ct, ll, ids, nv, lc, ln, cc, buf, pen⟩ := s
  simp only at h
  subst h
  cases rest with
  | nil =>
    cases pen with
    | nil =>
      right; left
      by_cases hc : c = 10 <;> simp [getNextChar, hc]
    | cons l ls =>
      right; right
      refine ⟨l, ls, rfl, rfl, ?_, ?_⟩ <;> by_cases hc : c = 10 <;> simp [getNextChar, hc]
  | cons d ds =>
    left
    refine ⟨by simp, ?_, ?_⟩ <;> by_cases hc : c = 10 <;> simp [getNextChar, hc]

/-- Consuming one character removes exactly the head of the unread stream. -/
lemma getNextChar_stream {s : LexerState} {c : Int} {rest : List Int}
    (h : s.curLineBuffer = c :: rest) :
    streamOf s = c :: streamOf (getNextChar s).2 := by
  rcases getNextChar_buf_pen h with ⟨_, hb, hp⟩ | ⟨hr, hp0, hb, hp⟩ | ⟨l, ls, hr, hpen, hb, hp⟩
  · simp [streamOf, h, hb, hp]
  · simp [streamOf, h, hr, hp0, hb, hp]
  · simp [streamOf, h, hr, hpen, hb, hp]

lemma getNextChar_rem {s : LexerState} {c : Int} {rest : List Int}
    (h : s.curLineBuffer = c :: rest) :
    remChars (getNextChar s).2 + 1 = remChars s := by
  have hs := getNextChar_stream h
  simp only [remChars, hs, List.length_cons]

/-- getNextChar touches only the position counters and the line bookkeeping. -/
lemma getNextChar_fields (s : LexerState) :
    (getNextChar s).2.curTok = s.curTok ∧
    (getNextChar s).2.lastLocation = s.lastLocation ∧
    (getNextChar s).2.identifierStr = s.identifierStr ∧
    (getNextChar s).2.numVal = s.numVal ∧
    (getNextChar s).2.last_char = s.last_char := by
  obtain ⟨ct, ll, ids, nv, lc, ln, cc, buf, pen⟩ := s
  cases buf with
  | nil => simp [getNextChar]
  | cons c rest =>
    cases rest <;> cases pen <;> by_cases hc : c = 10 <;> simp [getNextChar, hc]

/-- The line counter never decreases on a character advance. -/
lemma getNextChar_line (s : LexerState) :
    s.curLineNum ≤ (getNextChar s).2.curLineNum := by
  obtain ⟨ct, ll, ids, nv, lc, ln, cc, buf, pen⟩ := s
  cases buf with
  | nil => simp [getNextChar]
  | cons c rest =>
    cases rest <;> cases pen <;> by_cases hc : c = 10 <;> simp [getNextChar, hc]

/-- Column and line updates of a consuming character advance. -/
lemma getNextChar_counters {s : LexerState} {c : Int} {rest : List Int}
    (h : s.curLineBuffer = c :: rest) :
    ((getNextChar s).2.curCol = 0 ↔ c = 10) ∧
    (c = 10 → (getNextChar s).2.curLineNum = s.curLineNum + 1 ∧ (getNextChar s).2.curCol = 0) ∧
    (c ≠ 10 → (getNextChar s).2.curLineNum = s.curLineNum ∧
      (getNextChar s).2.curCol = s.curCol + 1) := by
  obtain ⟨ct, ll, ids, nv, lc, ln, cc, buf, pen⟩ := s
  simp only at h
  subst h
  cases rest <;> cases pen <;> by_cases hc : c = 10 <;> simp [getNextChar, hc]

lemma getNextChar_rem_le (s : LexerState) : remChars (getNextChar s).2 ≤ remChars s := by
  cases hb : s.curLineBuffer with
  | nil => rw [getNextChar_empty hb]
  | cons c rest => have := getNextChar_rem hb; omega

lemma getNextChar_inv {s : LexerState} (h : StateInv s) : StateInv (getNextChar s).2 := by
  obtain ⟨h1, h2⟩ := h
  cases hb : s.curLineBuffer with
  | nil => rw [getNextChar_empty hb]; exact ⟨h1, h2⟩
  | cons c rest =>
    rcases getNextChar_buf_pen hb with ⟨hne, hb2, hp2⟩ | ⟨hr, hp0, hb2, hp2⟩ |
      ⟨l, ls, hr, hpen, hb2, hp2⟩
    · refine ⟨fun l2 hl2 => h1 l2 (by rwa [hp2] at hl2), fun hbe => ?_⟩
      rw [hb2] at hbe
      exact absurd hbe hne
    · exact ⟨fun l2 hl2 => by rw [hp2] at hl2; simp at hl2, fun _ => hp2⟩
    · refine ⟨fun l2 hl2 => h1 l2 (by rw [hpen]; rw [hp2] at hl2; simp [hl2]), fun hbe => ?_⟩
      rw [hb2] at hbe
      exact absurd hbe (h1 l (by rw [hpen]; simp))

/-! General facts about the scanning loops, valid for every fuel value: they
never touch curTok, lastLocation, identifierStr or numVal, they never decrease
the line counter, they never grow the unread stream, and they preserve the
line-bookkeeping invariant. -/

lemma skipWsF_general (f : Nat) : ∀ s : LexerState,
    (skipWsF f s).curTok = s.curTok ∧
    (skipWsF f s).lastLocation = s.lastLocation ∧
    (skipWsF f s).identifierStr = s.identifierStr ∧
    (skipWsF f s).numVal = s.numVal ∧
    s.curLineNum ≤ (skipWsF f s).curLineNum ∧
    remChars (skipWsF f s) ≤ remChars s ∧
    (StateInv s → StateInv (skipWsF f s)) := by
  induction f with
  | zero => intro s; simp [skipWsF]
  | succ g ih =>
    intro s
    by_cases hsp : isspace s.last_char
    · simp only [skipWsF, hsp, if_true]
      obtain ⟨e1, e2, e3, e4, _⟩ := getNextChar_fields s
      obtain ⟨f1, f2, f3, f4, f5, f6, f7⟩ :=
        ih { (getNextChar s).2 with last_char := (getNextChar s).1 }
      refine ⟨by rw [f1]; exact e1, by rw [f2]; exact e2, by rw [f3]; exact e3,
        by rw [f4]; exact e4, le_trans (le_trans (getNextChar_line s) (le_refl _)) f5,
        le_trans f6 (getNextChar_rem_le s), fun hinv => f7 (getNextChar_inv hinv)⟩
    · simp [skipWsF, hsp]

lemma identLoopF_general (f : Nat) : ∀ (acc : List Int) (s : LexerState),
    (identLoopF f acc s).2.curTok = s.curTok ∧
    (identLoopF f acc s).2.lastLocation = s.lastLocation ∧
    (identLoopF f acc s).2.numVal = s.numVal ∧
    s.curLineNum ≤ (identLoopF f acc s).2.curLineNum ∧
    remChars (identLoopF f acc s).2 ≤ remChars s ∧
    (StateInv s → StateInv (identLoopF f acc s).2) := by
  induction f with
  | zero => intro acc s; simp [identLoopF]
  | succ g ih =>
    intro acc s
    obtain ⟨e1, e2, e3, e4, _⟩ := getNextChar_fields s
    by_cases hcl : isalnum (getNextChar s).1 ∨ (getNextChar s).1 = 95
    · simp only [identLoopF, hcl, if_true]
      obtain ⟨f1, f2, f3, f4, f5, f6⟩ := ih (acc ++ [(getNextChar s).1])
        { (getNextChar s).2 with last_char := (getNextChar s).1 }
      refine ⟨by rw [f1]; exact e1, by rw [f2]; exact e2, by rw [f3]; exact e4,
        le_trans (getNextChar_line s) f4,
        le_trans f5 (getNextChar_rem_le s), fun hinv => f6 (getNextChar_inv hinv)⟩
    · simp only [identLoopF, hcl, if_false]
      exact ⟨e1, e2, e4, getNextChar_line s, getNextChar_rem_le s,
        fun hinv => getNextChar_inv hinv⟩

lemma numLoopF_general (f : Nat) : ∀ (numStr : List Int) (s : LexerState),
    (numLoopF f numStr s).2.curTok = s.curTok ∧
    (numLoopF f numStr s).2.lastLocation = s.lastLocation ∧
    (numLoopF f numStr s).2.identifierStr = s.identifierStr ∧
    s.curLineNum ≤ (numLoopF f numStr s).2.curLineNum ∧
    remChars (numLoopF f numStr s).2 ≤ remChars s ∧
    (StateInv s → StateInv (numLoopF f numStr s).2) := by
  induction f with
  | zero => intro numStr s; simp [numLoopF]
  | succ g ih =>
    intro numStr s
    obtain ⟨e1, e2, e3, e4, _⟩ := getNextChar_fields s
    by_cases hcl : isdigit (getNextChar s).1 ∨ (getNextChar s).1 = 46
    · simp only [numLoopF, hcl, if_true]
      obtain ⟨f1, f2, f3, f4, f5, f6⟩ := ih (numStr ++ to_string_int s.last_char)
        { (getNextChar s).2 with last_char := (getNextChar s).1 }
      refine ⟨by rw [f1]; exact e1, by rw [f2]; exact e2, by rw [f3]; exact e3,
        le_trans (getNextChar_line s) f4,
        le_trans f5 (getNextChar_rem_le s), fun hinv => f6 (getNextChar_inv hinv)⟩
    · simp only [numLoopF, hcl, if_false]
      exact ⟨e1, e2, e3, getNextChar_line s, getNextChar_rem_le s,
        fun hinv => getNextChar_inv hinv⟩

lemma commentLoopF_general (f : Nat) : ∀ s : LexerState,
    (commentLoopF f s).curTok = s.curTok ∧
    (commentLoopF f s).lastLocation = s.lastLocation ∧
    (commentLoopF f s).identifierStr = s.identifierStr ∧
    (commentLoopF f s).numVal = s.numVal ∧
    s.curLineNum ≤ (commentLoopF f s).curLineNum ∧
    remChars (commentLoopF f s) ≤ remChars s ∧
    (StateInv s → StateInv (commentLoopF f s)) := by
  induction f with
  | zero => intro s; simp [commentLoopF]
  | succ g ih =>
    intro s
    obtain ⟨e1, e2, e3, e4, _⟩ := getNextChar_fields s
    by_cases hcl : (getNextChar s).1 ≠ EOF ∧ (getNextChar s).1 ≠ 10 ∧ (getNextChar s).1 ≠ 13
    · simp only [commentLoopF]
      rw [if_pos hcl]
      obtain ⟨f1, f2, f3, f4, f5, f6, f7⟩ :=
        ih { (getNextChar s).2 with last_char := (getNextChar s).1 }
      refine ⟨by rw [f1]; exact e1, by rw [f2]; exact e2, by rw [f3]; exact e3,
        by rw [f4]; exact e4, le_trans (getNextChar_line s) f5,
        le_trans f6 (getNextChar_rem_le s), fun hinv => f7 (getNextChar_inv hinv)⟩
    · simp only [commentLoopF]
      rw [if_neg hcl]
      exact ⟨e1, e2, e3, e4, getNextChar_line s, getNextChar_rem_le s,
        fun hinv => getNextChar_inv hinv⟩

/-- If the unread stream starts with some character, the line buffer starts
with that character. -/
lemma stream_cons_buffer {s : LexerState} {c : Int} {r : List Int}
    (hinv : StateInv s) (h : streamOf s = c :: r) :
    ∃ rest, s.curLineBuffer = c :: rest := by
  cases hb : s.curLineBuffer with
  | nil =>
    have : s.pending = [] := hinv.2 hb
    rw [streamOf, hb, this] at h
    simp at h
  | cons d ds =>
    rw [streamOf, hb] at h
    simp only [List.cons_append, List.cons.injEq] at h
    obtain ⟨h1, h2⟩ := h
    subst h1
    exact ⟨ds, rfl⟩

lemma remChars_set_last (s : LexerState) (c : Int) :
    remChars { s with last_char := c } = remChars s := rfl

lemma streamOf_set_last (s : LexerState) (c : Int) :
    streamOf { s with last_char := c } = streamOf s := rfl

lemma skipWsF_id {s : LexerState} (f : Nat) (h : isspace s.last_char = false) :
    skipWsF f s = s := by
  cases f <;> simp [skipWsF, h]

/-- With sufficient fuel the whitespace loop always stops on a non-space
lookahead. -/
lemma skipWsF_not_space (f : Nat) : ∀ s : LexerState,
    remChars s + 2 ≤ f → isspace (skipWsF f s).last_char = false := by
  induction f with
  | zero => intro s h; omega
  | succ g ih =>
    intro s h
    by_cases hsp : isspace s.last_char
    · simp only [skipWsF, hsp, if_true]
      cases hb : s.curLineBuffer with
      | nil =>
        rw [getNextChar_empty hb]
        have hg : 1 ≤ g := by
          have := Nat.zero_le (remChars s); omega
        obtain ⟨g2, rfl⟩ : ∃ g2, g = g2 + 1 := ⟨g - 1, by omega⟩
        simp [skipWsF, isspace_EOF]
      | cons c rest =>
        apply ih
        rw [remChars_set_last]
        have h1 := getNextChar_rem hb
        omega
    · rw [skipWsF_id _ (by simpa using hsp)]
      simpa using hsp

lemma skipWs_not_space (s : LexerState) : isspace (skipWs s).last_char = false :=
  skipWsF_not_space _ s (le_refl _)

lemma skipWs_id {s : LexerState} (h : isspace s.last_char = false) : skipWs s = s :=
  skipWsF_id _ h

/-- The whitespace loop consumes exactly the maximal space prefix of the
stream, leaving the first non-space character in the lookahead. -/
lemma skipWsF_walk (ws : List Int) : ∀ (f : Nat) (s : LexerState) (c : Int) (r : List Int),
    remChars s + 2 ≤ f → StateInv s → isspace s.last_char = true →
    streamOf s = ws ++ c :: r → (∀ x ∈ ws, isspace x = true) → isspace c = false →
    (skipWsF f s).last_char = c ∧ streamOf (skipWsF f s) = r ∧ StateInv (skipWsF f s) := by
  induction ws with
  | nil =>
    intro f s c r hf hinv hsp hst hws hc
    simp only [List.nil_append] at hst
    obtain ⟨rest, hb⟩ := stream_cons_buffer hinv hst
    obtain ⟨g, rfl⟩ : ∃ g, f = g + 1 := ⟨f - 1, by omega⟩
    simp only [skipWsF, hsp, if_true]
    have hfst := getNextChar_fst hb
    have hstr := getNextChar_stream hb
    rw [hst] at hstr
    have hs2 : streamOf (getNextChar s).2 = r := by
      injection hstr with h1 h2; exact h2.symm
    rw [skipWsF_id g (by show isspace (getNextChar s).1 = false; rw [hfst]; exact hc)]
    exact ⟨hfst, hs2, getNextChar_inv hinv⟩
  | cons w ws2 ih =>
    intro f s c r hf hinv hsp hst hws hc
    obtain ⟨rest, hb⟩ := stream_cons_buffer hinv
      (show streamOf s = w :: (ws2 ++ c :: r) by simpa using hst)
    obtain ⟨g, rfl⟩ : ∃ g, f = g + 1 := ⟨f - 1, by omega⟩
    simp only [skipWsF, hsp, if_true]
    have hfst := getNextChar_fst hb
    have hstr := getNextChar_stream hb
    rw [hst] at hstr
    simp only [List.cons_append] at hstr
    have hs2 : streamOf (getNextChar s).2 = ws2 ++ c :: r := by
      injection hstr with h1 h2; exact h2.symm
    have hrem := getNextChar_rem hb
    exact ih g { (getNextChar s).2 with last_char := (getNextChar s).1 } c r
      (by rw [remChars_set_last]; omega)
      (getNextChar_inv hinv)
      (by show isspace (getNextChar s).1 = true
          rw [hfst]; exact hws w (by simp))
      hs2 (fun x hx => hws x (by simp [hx])) hc

/-- The identifier loop appends exactly the ident-shaped stream prefix to its
accumulator. -/
lemma identLoopF_spec (xs : List Int) : ∀ (f : Nat) (acc : List Int) (s : LexerState)
    (r : List Int),
    remChars s + 2 ≤ f → StateInv s → streamOf s = xs ++ r →
    (∀ x ∈ xs, (isalnum x || decide (x = 95)) = true) →
    (r = [] ∨ ∃ y t, r = y :: t ∧ (isalnum y || decide (y = 95)) = false) →
    (identLoopF f acc s).1 = acc ++ xs := by
  induction xs with
  | nil =>
    intro f acc s r hf hinv hst hxs hr
    obtain ⟨g, rfl⟩ : ∃ g, f = g + 1 := ⟨f - 1, by omega⟩
    rcases hr with hr | ⟨y, t, hr, hy⟩
    · subst hr
      simp only [List.nil_append] at hst
      have hb : s.curLineBuffer = [] := by
        have := List.append_eq_nil.mp (show s.curLineBuffer ++ s.pending.flatten = []
          from hst)
        exact this.1
      simp only [identLoopF]
      rw [getNextChar_empty hb]
      simp [EOF, isalnum, isalpha, isdigit]
    · subst hr
      simp only [List.nil_append] at hst
      obtain ⟨rest, hb⟩ := stream_cons_buffer hinv hst
      have hfst := getNextChar_fst hb
      have hcond : ¬ (isalnum (getNextChar s).1 ∨ (getNextChar s).1 = 95) := by
        rw [hfst]
        simp only [Bool.or_eq_false_iff, decide_eq_false_iff_not] at hy
        intro hcon
        rcases hcon with hcon | hcon
        · rw [hy.1] at hcon; exact absurd hcon (by simp)
        · exact hy.2 hcon
      simp only [identLoopF]
      rw [if_neg hcond]
      simp
  | cons x xs2 ih =>
    intro f acc s r hf hinv hst hxs hr
    obtain ⟨g, rfl⟩ : ∃ g, f = g + 1 := ⟨f - 1, by omega⟩
    obtain ⟨rest, hb⟩ := stream_cons_buffer hinv
      (show streamOf s = x :: (xs2 ++ r) by simpa using hst)
    have hfst := getNextChar_fst hb
    have hstr := getNextChar_stream hb
    rw [hst] at hstr
    simp only [List.cons_append] at hstr
    have hs2 : streamOf (getNextChar s).2 = xs2 ++ r := by
      injection hstr with h1 h2; exact h2.symm
    have hrem := getNextChar_rem hb
    have hxgood := hxs x (by simp)
    simp only [identLoopF]
    rw [if_pos (by rw [hfst]
                   simp only [Bool.or_eq_true, decide_eq_true_eq] at hxgood ⊢
                   tauto)]
    rw [hfst]
    have := ih g (acc ++ [x]) { (getNextChar s).2 with last_char := x } r
      (by rw [remChars_set_last]; omega)
      (getNextChar_inv hinv) hs2 (fun z hz => hxs z (by simp [hz])) hr
    rw [this]
    simp

/-- With no line end ahead, the comment loop runs to end of input. -/
lemma commentLoopF_no_nl (f : Nat) : ∀ s : LexerState,
    remChars s + 2 ≤ f → StateInv s → (∀ x ∈ streamOf s, x ≠ 10 ∧ x ≠ 13) →
    (commentLoopF f s).last_char = EOF := by
  induction f with
  | zero => intro s h; omega
  | succ g ih =>
    intro s hf hinv hno
    simp only [commentLoopF]
    cases hb : s.curLineBuffer with
    | nil =>
      rw [getNextChar_empty hb]
      rw [if_neg (by simp)]
    | cons c rest =>
      have hfst := getNextChar_fst hb
      have hstr := getNextChar_stream hb
      have hmem : c ∈ streamOf s := by rw [hstr]; simp
      have hc1013 := hno c hmem
      by_cases hceof : c = EOF
      · rw [if_neg (by rw [hfst, hceof]; simp)]
        simp [hfst, hceof]
      · rw [if_pos (by rw [hfst]; exact ⟨hceof, hc1013.1, hc1013.2⟩)]
        apply ih
        · rw [remChars_set_last]
          have hrem := getNextChar_rem hb
          omega
        · exact getNextChar_inv hinv
        · intro x hx
          apply hno
          rw [hstr]
          right
          exact hx

/-- With a comment body followed by a line end ahead, the comment loop consumes
the body and the line end, leaving the line end in the lookahead. -/
lemma commentLoopF_nl (b : List Int) : ∀ (f : Nat) (s : LexerState) (t : Int)
    (r : List Int),
    remChars s + 2 ≤ f → StateInv s → streamOf s = b ++ t :: r →
    (∀ x ∈ b, 0 ≤ x ∧ x ≠ 10 ∧ x ≠ 13) → (t = 10 ∨ t = 13) →
    (commentLoopF f s).last_char = t ∧ streamOf (commentLoopF f s) = r ∧
      StateInv (commentLoopF f s) ∧ remChars (commentLoopF f s) < remChars s := by
  induction b with
  | nil =>
    intro f s t r hf hinv hst hb ht
    obtain ⟨g, rfl⟩ : ∃ g, f = g + 1 := ⟨f - 1, by omega⟩
    simp only [List.nil_append] at hst
    obtain ⟨rest, hbuf⟩ := stream_cons_buffer hinv hst
    have hfst := getNextChar_fst hbuf
    have hstr := getNextChar_stream hbuf
    rw [hst] at hstr
    have hs2 : streamOf (getNextChar s).2 = r := by
      injection hstr with h1 h2; exact h2.symm
    have hrem := getNextChar_rem hbuf
    simp only [commentLoopF]
    rw [if_neg (by rw [hfst]; rcases ht with ht | ht <;> simp [ht])]
    refine ⟨hfst, hs2, getNextChar_inv hinv, ?_⟩
    rw [remChars_set_last]
    omega
  | cons x b2 ih =>
    intro f s t r hf hinv hst hb ht
    obtain ⟨g, rfl⟩ : ∃ g, f = g + 1 := ⟨f - 1, by omega⟩
    obtain ⟨rest, hbuf⟩ := stream_cons_buffer hinv
      (show streamOf s = x :: (b2 ++ t :: r) by simpa using hst)
    have hfst := getNextChar_fst hbuf
    have hstr := getNextChar_stream hbuf
    rw [hst] at hstr
    simp only [List.cons_append] at hstr
    have hs2 : streamOf (getNextChar s).2 = b2 ++ t :: r := by
      injection hstr with h1 h2; exact h2.symm
    have hrem := getNextChar_rem hbuf
    have hxprop := hb x (by simp)
    simp only [commentLoopF]
    rw [if_pos (by rw [hfst]
                   refine ⟨?_, hxprop.2.1, hxprop.2.2⟩
                   simp only [EOF, ne_eq]
                   omega)]
    have := ih g { (getNextChar s).2 with last_char := (getNextChar s).1 } t r
      (by rw [remChars_set_last]; omega)
      (getNextChar_inv hinv) hs2 (fun z hz => hb z (by simp [hz])) ht
    refine ⟨this.1, this.2.1, this.2.2.1, ?_⟩
    have h4 := this.2.2.2
    have h5 : remChars { (getNextChar s).2 with last_char := (getNextChar s).1 } =
        remChars (getNextChar s).2 := rfl
    exact show remChars
        (commentLoopF g { (getNextChar s).2 with last_char := (getNextChar s).1 }) <
        remChars s by omega

/-! Wrapper-level corollaries of the loop lemmas. -/

lemma skipWs_curTok (s : LexerState) : (skipWs s).curTok = s.curTok :=
  (skipWsF_general _ s).1

lemma skipWs_line (s : LexerState) : s.curLineNum ≤ (skipWs s).curLineNum :=
  (skipWsF_general _ s).2.2.2.2.1

lemma skipWs_rem (s : LexerState) : remChars (skipWs s) ≤ remChars s :=
  (skipWsF_general _ s).2.2.2.2.2.1

lemma skipWs_inv {s : LexerState} (h : StateInv s) : StateInv (skipWs s) :=
  (skipWsF_general _ s).2.2.2.2.2.2 h

lemma identLoop_lastLoc (acc : List Int) (s : LexerState) :
    (identLoop acc s).2.lastLocation = s.lastLocation :=
  (identLoopF_general _ acc s).2.1

lemma identLoop_line (acc : List Int) (s : LexerState) :
    s.curLineNum ≤ (identLoop acc s).2.curLineNum :=
  (identLoopF_general _ acc s).2.2.2.1

lemma numLoop_lastLoc (s : LexerState) : (numLoop s).2.lastLocation = s.lastLocation :=
  (numLoopF_general _ [] s).2.1

lemma numLoop_line (s : LexerState) : s.curLineNum ≤ (numLoop s).2.curLineNum :=
  (numLoopF_general _ [] s).2.2.2.1

lemma commentLoop_lastLoc (s : LexerState) :
    (commentLoop s).lastLocation = s.lastLocation :=
  (commentLoopF_general _ s).2.1

lemma commentLoop_line (s : LexerState) : s.curLineNum ≤ (commentLoop s).curLineNum :=
  (commentLoopF_general _ s).2.2.2.2.1

lemma commentLoop_rem (s : LexerState) : remChars (commentLoop s) ≤ remChars s :=
  (commentLoopF_general _ s).2.2.2.2.2.1

/-! One-step unfolding equations for the fueled loops (plain rfl facts, used
to unfold exactly one iteration at a time). -/

lemma skipWsF_succ (f : Nat) (s : LexerState) :
    skipWsF (f + 1) s =
      if isspace s.last_char then
        skipWsF f { (getNextChar s).2 with last_char := (getNextChar s).1 }
      else s := rfl

lemma identLoopF_succ (f : Nat) (acc : List Int) (s : LexerState) :
    identLoopF (f + 1) acc s =
      if isalnum (getNextChar s).1 ∨ (getNextChar s).1 = 95 then
        identLoopF f (acc ++ [(getNextChar s).1])
          { (getNextChar s).2 with last_char := (getNextChar s).1 }
      else (acc, { (getNextChar s).2 with last_char := (getNextChar s).1 }) := rfl

lemma numLoopF_succ (f : Nat) (numStr : List Int) (s : LexerState) :
    numLoopF (f + 1) numStr s =
      if isdigit (getNextChar s).1 ∨ (getNextChar s).1 = 46 then
        numLoopF f (numStr ++ to_string_int s.last_char)
          { (getNextChar s).2 with last_char := (getNextChar s).1 }
      else (numStr ++ to_string_int s.last_char,
        { (getNextChar s).2 with last_char := (getNextChar s).1 }) := rfl

lemma commentLoopF_succ (f : Nat) (s : LexerState) :
    commentLoopF (f + 1) s =
      if (getNextChar s).1 ≠ EOF ∧ (getNextChar s).1 ≠ 10 ∧ (getNextChar s).1 ≠ 13 then
        commentLoopF f { (getNextChar s).2 with last_char := (getNextChar s).1 }
      else { (getNextChar s).2 with last_char := (getNextChar s).1 } := rfl

lemma getTokF_succ (f : Nat) (s : LexerState) :
    getTokF (f + 1) s =
      match getTokStep s with
      | (some t, s1) => (t, s1)
      | (none, s1) => getTokF f s1 := rfl

/-- If the comment loop did not stop on EOF it consumed at least one
character. -/
lemma commentLoop_ne_eof_dec {s : LexerState} (h : (commentLoop s).last_char ≠ EOF) :
    remChars (commentLoop s) < remChars s := by
  cases hb : s.curLineBuffer with
  | nil =>
    exfalso
    apply h
    show (commentLoopF (remChars s + 1 + 1) s).last_char = EOF
    rw [commentLoopF_succ, getNextChar_empty hb]
    rw [if_neg (by simp)]
  | cons c rest =>
    have hrem := getNextChar_rem hb
    have hmono := (commentLoopF_general (remChars s + 1)
      { (getNextChar s).2 with last_char := (getNextChar s).1 }).2.2.2.2.2.1
    have h5 : remChars { (getNextChar s).2 with last_char := (getNextChar s).1 } =
        remChars (getNextChar s).2 := rfl
    show remChars (commentLoopF (remChars s + 1 + 1) s) < remChars s
    rw [commentLoopF_succ]
    split
    · omega
    · omega

/-! Facts about a single getTok pass. -/

lemma skipAndMark_last (s : LexerState) :
    (skipAndMark s).last_char = (skipWs s).last_char := rfl

lemma skipAndMark_line (s : LexerState) :
    (skipAndMark s).curLineNum = (skipWs s).curLineNum := rfl

lemma skipAndMark_loc (s : LexerState) :
    (skipAndMark s).lastLocation =
      ⟨(skipWs s).lastLocation.file, (skipWs s).curLineNum, (skipWs s).curCol⟩ := rfl

lemma skipAndMark_stream (s : LexerState) :
    streamOf (skipAndMark s) = streamOf (skipWs s) := rfl

lemma skipAndMark_rem (s : LexerState) :
    remChars (skipAndMark s) = remChars (skipWs s) := rfl

lemma skipAndMark_inv {s : LexerState} (h : StateInv s) : StateInv (skipAndMark s) :=
  skipWs_inv h

/-- At end of input getTok does not read, records the current position, and
produces tok_eof on the very pass it is called. -/
lemma getTokStep_at_eof {s : LexerState} (h : s.last_char = EOF) :
    getTokStep s = (some tok_eof,
      { s with lastLocation := ⟨s.lastLocation.file, s.curLineNum, s.curCol⟩ }) := by
  have hs : skipWs s = s := skipWs_id (by rw [h]; rfl)
  simp only [getTokStep, skipAndMark, hs]
  rw [if_neg (by show ¬ isalpha s.last_char = true; rw [h]; decide)]
  rw [if_neg (by show ¬ (isdigit s.last_char = true ∨ s.last_char = 46)
                 rw [h]; decide)]
  rw [if_neg (by show ¬ s.last_char = 35; rw [h]; decide)]
  rw [if_pos (by show s.last_char = EOF; exact h)]

/-- A getTok pass yields tok_eof only with the EOF lookahead in hand. -/
lemma getTokStep_some_eof_last {s : LexerState}
    (h : (getTokStep s).1 = some tok_eof) : (getTokStep s).2.last_char = EOF := by
  simp only [getTokStep, skipAndMark] at h ⊢
  split_ifs at h ⊢ <;>
    simp_all [tok_return, tok_def, tok_var, tok_identifier, tok_number, tok_eof, EOF]

/-- A restarting getTok pass (a newline-terminated comment) consumed at least
one character. -/
lemma getTokStep_none_dec {s s1 : LexerState}
    (h : getTokStep s = (none, s1)) : remChars s1 < remChars s := by
  simp only [getTokStep, skipAndMark] at h
  split_ifs at h with h1 h2 h3 h4 h5 h6 h7
  all_goals simp at h
  rw [← h]
  exact lt_of_lt_of_le (commentLoop_ne_eof_dec h7) (skipWs_rem s)

/-- Every getTok pass stamps lastLocation with the position right after the
whitespace skip, and never decreases the line counter afterwards. -/
lemma getTokStep_loc (s : LexerState) :
    (getTokStep s).2.lastLocation = ⟨(skipWs s).lastLocation.file, (skipWs s).curLineNum,
      (skipWs s).curCol⟩ ∧ (skipWs s).curLineNum ≤ (getTokStep s).2.curLineNum := by
  simp only [getTokStep]
  split_ifs
  all_goals dsimp only
  all_goals rw [← skipAndMark_loc, ← skipAndMark_line]
  · exact ⟨by rw [identLoop_lastLoc], by apply identLoop_line⟩
  · exact ⟨by rw [identLoop_lastLoc], by apply identLoop_line⟩
  · exact ⟨by rw [identLoop_lastLoc], by apply identLoop_line⟩
  · exact ⟨by rw [identLoop_lastLoc], by apply identLoop_line⟩
  · exact ⟨by rw [numLoop_lastLoc], by apply numLoop_line⟩
  · exact ⟨by rw [commentLoop_lastLoc], by apply commentLoop_line⟩
  · exact ⟨by rw [commentLoop_lastLoc], by apply commentLoop_line⟩
  · exact ⟨rfl, le_refl _⟩
  · exact ⟨by rw [(getNextChar_fields _).2.1], by apply getNextChar_line⟩

/-! Facts about getTok (the pass iteration) and getNextToken. -/

lemma getTokF_eof_last (f : Nat) : ∀ s : LexerState, remChars s + 2 ≤ f →
    (getTokF f s).1 = tok_eof → (getTokF f s).2.last_char = EOF := by
  induction f with
  | zero => intro s h; omega
  | succ g ih =>
    intro s hf h
    rw [getTokF_succ] at h ⊢
    cases hstep : getTokStep s with
    | mk o s1 =>
      cases o with
      | some t =>
        rw [hstep] at h
        dsimp only at h ⊢
        have hteof : (getTokStep s).1 = some tok_eof := by
          rw [hstep, h]
        have := getTokStep_some_eof_last hteof
        rw [hstep] at this
        exact this
      | none =>
        rw [hstep] at h
        dsimp only at h ⊢
        have hdec := getTokStep_none_dec hstep
        exact ih s1 (by omega) h

lemma getTok_eof_last {s : LexerState} (h : (getTok s).1 = tok_eof) :
    (getTok s).2.last_char = EOF :=
  getTokF_eof_last _ s (le_refl _) h

lemma getTok_at_eof {s : LexerState} (h : s.last_char = EOF) :
    getTok s = (tok_eof,
      { s with lastLocation := ⟨s.lastLocation.file, s.curLineNum, s.curCol⟩ }) := by
  show getTokF (remChars s + 1 + 1) s = _
  rw [getTokF_succ, getTokStep_at_eof h]

lemma getTokF_line (f : Nat) : ∀ s : LexerState, remChars s + 2 ≤ f →
    1 ≤ (skipWs s).curLineNum →
    1 ≤ (getTokF f s).2.curLineNum ∧ 1 ≤ (getTokF f s).2.lastLocation.line := by
  induction f with
  | zero => intro s h; omega
  | succ g ih =>
    intro s hf hline
    rw [getTokF_succ]
    obtain ⟨hloc, hmono⟩ := getTokStep_loc s
    cases hstep : getTokStep s with
    | mk o s1 =>
      cases o with
      | some t =>
        dsimp only
        rw [hstep] at hloc hmono
        refine ⟨le_trans hline hmono, ?_⟩
        rw [hloc]
        exact hline
      | none =>
        dsimp only
        rw [hstep] at hloc hmono
        have hdec := getTokStep_none_dec hstep
        exact ih s1 (by omega)
          (le_trans (le_trans hline hmono) (skipWs_line s1))

lemma getTok_line {s : LexerState} (h : 1 ≤ (skipWs s).curLineNum) :
    1 ≤ (getTok s).2.curLineNum ∧ 1 ≤ (getTok s).2.lastLocation.line :=
  getTokF_line _ s (le_refl _) h

/-- After consuming a leading newline, the whitespace loop leaves the line
counter at 1 or beyond. -/
lemma skipWs_first_line {s : LexerState} {rest : List Int}
    (hsp : isspace s.last_char = true) (hb : s.curLineBuffer = 10 :: rest) :
    1 ≤ (skipWs s).curLineNum := by
  show 1 ≤ (skipWsF (remChars s + 1 + 1) s).curLineNum
  rw [skipWsF_succ, if_pos hsp]
  have hc := ((getNextChar_counters hb).2.1 rfl).1
  have h1 : 1 ≤ ({ (getNextChar s).2 with last_char := (getNextChar s).1 } :
      LexerState).curLineNum := by
    show 1 ≤ (getNextChar s).2.curLineNum
    omega
  exact le_trans h1 ((skipWsF_general (remChars s + 1) _).2.2.2.2.1)

lemma getNextToken_curTok (s : LexerState) : (getNextToken s).curTok = (getTok s).1 := rfl

lemma getNextToken_last (s : LexerState) :
    (getNextToken s).last_char = (getTok s).2.last_char := rfl

/-- Once the lookahead holds EOF, getNextToken reports tok_eof, reads nothing,
and only re-stamps the (already final) location. -/
lemma getNextToken_at_eof {s : LexerState} (h : s.last_char = EOF) :
    getNextToken s =
      { s with
        curTok := tok_eof
        lastLocation := ⟨s.lastLocation.file, s.curLineNum, s.curCol⟩ } := by
  unfold getNextToken
  rw [getTok_at_eof h]

/-! Facts about the LexerBuffer line splitting and the initial state. -/

lemma spanToNewline_append : ∀ cs : List Int,
    (spanToNewline cs).1 ++ (spanToNewline cs).2 = cs := by
  intro cs
  induction cs with
  | nil => simp [spanToNewline]
  | cons c r ih =>
    by_cases h0 : c = 0
    · simp [spanToNewline, h0]
    · by_cases h10 : c = 10
      · simp [spanToNewline, h0, h10]
      · simp [spanToNewline, h0, h10, ih]

lemma linesOfF_ne : ∀ (f : Nat) (cs : List Int), ∀ l ∈ linesOfF f cs, l ≠ [] := by
  intro f
  induction f with
  | zero => intro cs l hl; simp [linesOfF] at hl
  | succ g ih =>
    intro cs l hl
    cases cs with
    | nil => simp [linesOfF] at hl
    | cons c r =>
      simp only [linesOfF] at hl
      split_ifs at hl with h1
      · simp at hl
      · rcases List.mem_cons.mp hl with h | h
        · rw [h]; exact h1
        · exact ih _ l h

lemma linesOf_ne {cs : List Int} : ∀ l ∈ linesOf cs, l ≠ [] :=
  linesOfF_ne _ cs

lemma linesOfF_flatten_prefix : ∀ (f : Nat) (cs : List Int),
    ∃ t, cs = (linesOfF f cs).flatten ++ t := by
  intro f
  induction f with
  | zero => intro cs; exact ⟨cs, by simp [linesOfF]⟩
  | succ g ih =>
    intro cs
    cases cs with
    | nil => exact ⟨[], by simp [linesOfF]⟩
    | cons c r =>
      simp only [linesOfF]
      split_ifs with h1
      · exact ⟨c :: r, by simp⟩
      · obtain ⟨t, ht⟩ := ih (spanToNewline (c :: r)).2
        refine ⟨t, ?_⟩
        conv_lhs => rw [← spanToNewline_append (c :: r)]
        simp only [List.flatten_cons, List.append_assoc]
        rw [← ht]

/-- A nonempty line with no newline and no NUL is handed over whole. -/
lemma spanToNewline_of_clean {cs : List Int} (h0 : ∀ x ∈ cs, x ≠ 0 ∧ x ≠ 10) :
    spanToNewline cs = (cs, []) := by
  induction cs with
  | nil => simp [spanToNewline]
  | cons c r ih =>
    have hc := h0 c (by simp)
    simp only [spanToNewline]
    rw [if_neg hc.1, if_neg hc.2, ih (fun x hx => h0 x (by simp [hx]))]

lemma linesOfF_nil (f : Nat) : linesOfF f [] = [] := by
  cases f <;> rfl

lemma linesOf_single {cs : List Int} (hne : cs ≠ [])
    (h0 : ∀ x ∈ cs, x ≠ 0 ∧ x ≠ 10) : linesOf cs = [cs] := by
  unfold linesOf
  cases cs with
  | nil => exact absurd rfl hne
  | cons c r =>
    show linesOfF ((c :: r).length + 1) (c :: r) = [c :: r]
    have : linesOfF ((c :: r).length + 1) (c :: r) =
        if (spanToNewline (c :: r)).1 = [] then []
        else (spanToNewline (c :: r)).1 :: linesOfF ((c :: r).length) (spanToNewline (c :: r)).2 := rfl
    rw [this, spanToNewline_of_clean h0]
    rw [if_neg (by simp)]
    rw [show ((c :: r, ([] : List Int)).2) = [] from rfl, linesOfF_nil]

lemma initState_inv (fname : String) (input : List Int) :
    StateInv (initState fname input) := by
  constructor
  · intro l hl
    exact linesOf_ne l hl
  · intro h
    simp [initState] at h

lemma initState_stream (fname : String) (input : List Int) :
    streamOf (initState fname input) = 10 :: (linesOf input).flatten := rfl

/-! The whitespace-and-comments-only input shape. -/

lemma notNl_true {d : Int} (h : notNl d = true) : d ≠ 10 ∧ d ≠ 13 := by
  simpa [notNl] using h

lemma notNl_false {d : Int} (h : notNl d = false) : d = 10 ∨ d = 13 := by
  simp [notNl] at h
  tauto

lemma length_dropWhile_le (p : Int → Bool) (l : List Int) :
    (l.dropWhile p).length ≤ l.length := by
  conv_rhs => rw [← List.takeWhile_append_dropWhile p l]
  rw [List.length_append]
  omega

lemma dropWhile_head_false {p : Int → Bool} : ∀ (l : List Int) (d : Int) (r2 : List Int),
    l.dropWhile p = d :: r2 → p d = false := by
  intro l
  induction l with
  | nil => intro d r2 h; simp [List.dropWhile] at h
  | cons a t ih =>
    intro d r2 h
    rw [List.dropWhile_cons] at h
    by_cases hp : p a = true
    · rw [if_pos hp] at h
      exact ih _ _ h
    · rw [if_neg hp] at h
      injection h with h1 h2
      rw [← h1]
      simpa using hp

lemma wsCommentsOnlyF_succ (f : Nat) (cs : List Int) :
    wsCommentsOnlyF (f + 1) cs =
      match cs with
      | [] => true
      | c :: r =>
        if isspace c then wsCommentsOnlyF f r
        else if c = 35 then wsCommentsOnlyF f (r.dropWhile notNl)
        else false := rfl

lemma wsCommentsOnlyF_eq : ∀ f : Nat, ∀ cs : List Int, cs.length < f →
    wsCommentsOnlyF f cs = wsCommentsOnly cs := by
  intro f
  induction f using Nat.strong_induction_on with
  | _ f ih =>
    intro cs hlen
    obtain ⟨g, rfl⟩ : ∃ g, f = g + 1 := ⟨f - 1, by omega⟩
    cases cs with
    | nil => rfl
    | cons c r =>
      have hlr : r.length < g := by simp at hlen; omega
      rw [wsCommentsOnlyF_succ]
      have hrhs : wsCommentsOnly (c :: r) =
          (if isspace c then wsCommentsOnlyF (r.length + 1) r
           else if c = 35 then wsCommentsOnlyF (r.length + 1) (r.dropWhile notNl)
           else false) := by
        show wsCommentsOnlyF ((c :: r).length + 1) (c :: r) = _
        rw [show (c :: r).length + 1 = (r.length + 1) + 1 by simp]
        rw [wsCommentsOnlyF_succ]
      rw [hrhs]
      dsimp only
      by_cases hsp : isspace c
      · rw [if_pos hsp, if_pos hsp]
        rw [ih g (by omega) r (by omega)]
        rw [ih (r.length + 1) (by omega) r (by omega)]
      · rw [if_neg hsp, if_neg hsp]
        by_cases h35 : c = 35
        · rw [if_pos h35, if_pos h35]
          have hd := length_dropWhile_le notNl r
          rw [ih g (by omega) _ (by omega)]
          rw [ih (r.length + 1) (by omega) _ (by omega)]
        · rw [if_neg h35, if_neg h35]

lemma wsCommentsOnly_cons (c : Int) (r : List Int) :
    wsCommentsOnly (c :: r) =
      (if isspace c then wsCommentsOnly r
       else if c = 35 then wsCommentsOnly (r.dropWhile notNl)
       else false) := by
  show wsCommentsOnlyF ((c :: r).length + 1) (c :: r) = _
  rw [show (c :: r).length + 1 = (r.length + 1) + 1 by simp]
  rw [wsCommentsOnlyF_succ]
  dsimp only
  rw [wsCommentsOnlyF_eq (r.length + 1) r (by omega)]
  rw [wsCommentsOnlyF_eq (r.length + 1) (r.dropWhile notNl)
    (by have := length_dropWhile_le notNl r; omega)]

/-- Every prefix of a whitespace-and-comments-only text is itself
whitespace-and-comments-only (truncation can only cut whitespace short or
leave a comment unterminated, both still in the shape). -/
lemma wsCommentsOnly_prefix (n : Nat) : ∀ y t : List Int, y.length ≤ n →
    wsCommentsOnly (y ++ t) = true → wsCommentsOnly y = true := by
  induction n with
  | zero =>
    intro y t hlen h
    have hy : y = [] := List.length_eq_zero.mp (by omega)
    rw [hy]
    rfl
  | succ m ih =>
    intro y t hlen h
    cases y with
    | nil => rfl
    | cons c y2 =>
      rw [List.cons_append, wsCommentsOnly_cons] at h
      rw [wsCommentsOnly_cons]
      by_cases hsp : isspace c
      · rw [if_pos hsp] at h ⊢
        exact ih y2 t (by simp at hlen; omega) h
      · rw [if_neg hsp] at h ⊢
        by_cases h35 : c = 35
        · rw [if_pos h35] at h ⊢
          rw [List.dropWhile_append] at h
          by_cases hemp : (y2.dropWhile notNl).isEmpty = true
          · rw [List.isEmpty_iff] at hemp
            rw [hemp]
            rfl
          · rw [if_neg hemp] at h
            exact ih (y2.dropWhile notNl) t
              (by have := length_dropWhile_le notNl y2; simp at hlen; omega) h
        · rw [if_neg h35] at h
          exact absurd h (by simp)

/-- From the executable recognizer to the inductive stream shape. -/
lemma wsCom_of_wsc (n : Nat) : ∀ cs : List Int, cs.length ≤ n →
    (∀ x ∈ cs, 0 ≤ x) → wsCommentsOnly cs = true → WsCom cs := by
  induction n with
  | zero =>
    intro cs hlen hnn h
    have : cs = [] := List.length_eq_zero.mp (by omega)
    rw [this]
    exact WsCom.nil
  | succ m ih =>
    intro cs hlen hnn h
    cases cs with
    | nil => exact WsCom.nil
    | cons c r =>
      rw [wsCommentsOnly_cons] at h
      by_cases hsp : isspace c
      · rw [if_pos hsp] at h
        exact WsCom.ws hsp (ih r (by simp at hlen; omega)
          (fun x hx => hnn x (by simp [hx])) h)
      · rw [if_neg hsp] at h
        by_cases h35 : c = 35
        · rw [if_pos h35] at h
          subst h35
          have hsplit := List.takeWhile_append_dropWhile notNl r
          cases hd : r.dropWhile notNl with
          | nil =>
            apply WsCom.comEnd
            intro x hx
            have hall : ∀ y ∈ r, notNl y = true := by
              intro y hy
              by_contra hcon
              have hne : r.dropWhile notNl ≠ [] := by
                intro hcontra
                have := List.dropWhile_eq_nil_iff.mp hcontra y hy
                exact hcon this
              exact hne hd
            have hx2 := notNl_true (hall x hx)
            exact ⟨hnn x (by simp [hx]), hx2.1, hx2.2⟩
          | cons d r2 =>
            have hd1013 := notNl_false (dropWhile_head_false r d r2 hd)
            rw [hd, wsCommentsOnly_cons] at h
            have hspd : isspace d = true := by
              rcases hd1013 with hdd | hdd <;> simp [isspace, hdd]
            rw [if_pos hspd] at h
            have hreq : r = r.takeWhile notNl ++ d :: r2 := by rw [← hd, hsplit]
            have hlen2 : r2.length ≤ m := by
              have hleq : r.length = (r.takeWhile notNl).length + r2.length + 1 := by
                conv_lhs => rw [hreq]
                simp
                omega
              simp at hlen
              omega
            have hmemr2 : ∀ x ∈ r2, x ∈ (35 : Int) :: r := by
              intro x hx
              have hx1 : x ∈ r.takeWhile notNl ++ d :: r2 :=
                List.mem_append.mpr (Or.inr (List.mem_cons.mpr (Or.inr hx)))
              rw [← hreq] at hx1
              exact List.mem_cons.mpr (Or.inr hx1)
            rw [hreq]
            apply WsCom.comNl
            · intro x hx
              have hx2 := notNl_true (List.mem_takeWhile_imp hx)
              have hx1 : x ∈ r.takeWhile notNl ++ d :: r2 :=
                List.mem_append.mpr (Or.inl hx)
              rw [← hreq] at hx1
              exact ⟨hnn x (List.mem_cons.mpr (Or.inr hx1)), hx2.1, hx2.2⟩
            · exact hd1013
            · exact ih r2 hlen2 (fun x hx => hnn x (hmemr2 x hx)) h
        · rw [if_neg h35] at h
          exact absurd h (by simp)

lemma wsCom_cons_inv {c : Int} {str : List Int} (h : WsCom (c :: str)) :
    (isspace c = true ∧ WsCom str) ∨ (c = 35 ∧ WsCom (35 :: str)) := by
  cases h with
  | ws h1 h2 => exact Or.inl ⟨h1, h2⟩
  | comEnd hb => exact Or.inr ⟨rfl, WsCom.comEnd hb⟩
  | comNl hb ht hr => exact Or.inr ⟨rfl, WsCom.comNl hb ht hr⟩

lemma wsCom_comment_inv {str : List Int} (h : WsCom (35 :: str)) :
    (∀ x ∈ str, 0 ≤ x ∧ x ≠ 10 ∧ x ≠ 13) ∨
    (∃ b t r, str = b ++ t :: r ∧ (∀ x ∈ b, 0 ≤ x ∧ x ≠ 10 ∧ x ≠ 13) ∧
      (t = 10 ∨ t = 13) ∧ WsCom r) := by
  cases h with
  | ws h1 h2 => simp [isspace] at h1
  | comEnd hb => exact Or.inl hb
  | comNl hb ht hr => exact Or.inr ⟨_, _, _, rfl, hb, ht, hr⟩

/-- Skipping whitespace over a whitespace-and-comments stream lands either on
end of input or on the # of a comment. -/
lemma skipWsF_wsCom (n : Nat) : ∀ (f : Nat) (s : LexerState), remChars s ≤ n →
    remChars s + 2 ≤ f → StateInv s → WsCom (s.last_char :: streamOf s) →
    StateInv (skipWsF f s) ∧ ((skipWsF f s).last_char = EOF ∨
      ((skipWsF f s).last_char = 35 ∧ WsCom (35 :: streamOf (skipWsF f s)))) := by
  induction n using Nat.strong_induction_on with
  | _ n ih =>
    intro f s hn hf hinv hw
    by_cases hsp : isspace s.last_char
    · obtain ⟨g, rfl⟩ : ∃ g, f = g + 1 := ⟨f - 1, by omega⟩
      rw [skipWsF_succ, if_pos hsp]
      cases hb : s.curLineBuffer with
      | nil =>
        rw [getNextChar_empty hb]
        rw [skipWsF_id g (by rfl)]
        exact ⟨hinv, Or.inl rfl⟩
      | cons c rest =>
        have hstr := getNextChar_stream hb
        have hfst := getNextChar_fst hb
        have hrem := getNextChar_rem hb
        rcases wsCom_cons_inv hw with ⟨_, hws⟩ | ⟨h35, _⟩
        · refine ih (remChars { (getNextChar s).2 with last_char := (getNextChar s).1 })
            (by rw [remChars_set_last]; omega) g _ (le_refl _)
            (by rw [remChars_set_last]; omega) (getNextChar_inv hinv) ?_
          rw [show ({ (getNextChar s).2 with last_char := (getNextChar s).1 } :
            LexerState).last_char = (getNextChar s).1 from rfl]
          rw [streamOf_set_last, hfst]
          rw [hstr] at hws
          exact hws
        · rw [h35] at hsp
          simp [isspace] at hsp
    · rw [skipWsF_id f (by simpa using hsp)]
      refine ⟨hinv, ?_⟩
      rcases wsCom_cons_inv hw with ⟨hsp2, _⟩ | ⟨h35, hcw⟩
      · exact absurd hsp2 (by simpa using hsp)
      · exact Or.inr ⟨h35, hcw⟩

lemma skipWs_wsCom {s : LexerState} (hinv : StateInv s)
    (hw : WsCom (s.last_char :: streamOf s)) :
    StateInv (skipWs s) ∧ ((skipWs s).last_char = EOF ∨
      ((skipWs s).last_char = 35 ∧ WsCom (35 :: streamOf (skipWs s)))) :=
  skipWsF_wsCom (remChars s) (remChars s + 2) s (le_refl _) (le_refl _) hinv hw

lemma getTokStep_skip_eof {s : LexerState} (h : (skipWs s).last_char = EOF) :
    getTokStep s = (some tok_eof, skipAndMark s) := by
  simp only [getTokStep]
  rw [if_neg (by rw [skipAndMark_last, h]; decide)]
  rw [if_neg (by rw [skipAndMark_last, h]; decide)]
  rw [if_neg (by rw [skipAndMark_last, h]; decide)]
  rw [if_pos (by rw [skipAndMark_last]; exact h)]

lemma getTokStep_comment {s : LexerState} (h : (skipWs s).last_char = 35) :
    getTokStep s =
      (if (commentLoop (skipAndMark s)).last_char = EOF
       then (some tok_eof, commentLoop (skipAndMark s))
       else (none, commentLoop (skipAndMark s))) := by
  simp only [getTokStep]
  rw [if_neg (by rw [skipAndMark_last, h]; decide)]
  rw [if_neg (by rw [skipAndMark_last, h]; decide)]
  rw [if_pos (by rw [skipAndMark_last]; exact h)]

/-- Over a whitespace-and-comments stream every getTok call yields tok_eof and
parks the lookahead at EOF. -/
lemma getTokF_wsCom (n : Nat) : ∀ (f : Nat) (s : LexerState), remChars s ≤ n →
    remChars s + 2 ≤ f → StateInv s →
    (s.last_char = EOF ∨ WsCom (s.last_char :: streamOf s)) →
    (getTokF f s).1 = tok_eof ∧ (getTokF f s).2.last_char = EOF := by
  induction n using Nat.strong_induction_on with
  | _ n ih =>
    intro f s hn hf hinv hdisj
    obtain ⟨g, rfl⟩ : ∃ g, f = g + 1 := ⟨f - 1, by omega⟩
    rcases hdisj with heof | hw
    · rw [getTokF_succ, getTokStep_at_eof heof]
      exact ⟨rfl, heof⟩
    · obtain ⟨hinvu, hu⟩ := skipWs_wsCom hinv hw
      rcases hu with hueof | ⟨hu35, huw⟩
      · rw [getTokF_succ, getTokStep_skip_eof hueof]
        exact ⟨rfl, by rw [skipAndMark_last]; exact hueof⟩
      · rw [getTokF_succ, getTokStep_comment hu35]
        rw [← skipAndMark_stream] at huw
        rcases wsCom_comment_inv huw with hbody | ⟨b, t, r, hstr, hb, ht, hr⟩
        · have hcl : (commentLoop (skipAndMark s)).last_char = EOF := by
            show (commentLoopF (remChars (skipAndMark s) + 2)
              (skipAndMark s)).last_char = EOF
            apply commentLoopF_no_nl _ _ (le_refl _) (skipAndMark_inv hinv)
            intro x hx
            exact ⟨(hbody x hx).2.1, (hbody x hx).2.2⟩
          rw [if_pos hcl]
          exact ⟨rfl, hcl⟩
        · have hnl : (commentLoop (skipAndMark s)).last_char = t ∧
              streamOf (commentLoop (skipAndMark s)) = r ∧
              StateInv (commentLoop (skipAndMark s)) ∧
              remChars (commentLoop (skipAndMark s)) < remChars (skipAndMark s) :=
            commentLoopF_nl b (remChars (skipAndMark s) + 2) (skipAndMark s) t r
              (le_refl _) (skipAndMark_inv hinv) hstr hb ht
          have hcl : (commentLoop (skipAndMark s)).last_char ≠ EOF := by
            rw [hnl.1]
            rcases ht with hh | hh <;> simp [hh, EOF]
          rw [if_neg hcl]
          dsimp only
          have hremlt : remChars (commentLoop (skipAndMark s)) < remChars s :=
            lt_of_lt_of_le hnl.2.2.2 (le_trans (le_of_eq (skipAndMark_rem s))
              (skipWs_rem s))
          refine ih (remChars (commentLoop (skipAndMark s))) (by omega) g _
            (le_refl _) (by omega) hnl.2.2.1 (Or.inr ?_)
          rw [hnl.1, hnl.2.1]
          refine WsCom.ws ?_ hr
          rcases ht with hh | hh <;> simp [isspace, hh]

lemma getTok_eq_step {s s1 : LexerState} {t : Int}
    (h : getTokStep s = (some t, s1)) : getTok s = (t, s1) := by
  show getTokF (remChars s + 1 + 1) s = _
  rw [getTokF_succ, h]

lemma advanceN_succ (s : LexerState) (n : Nat) :
    advanceN s (n + 1) = getNextToken (advanceN s n) := rfl

/-! The claims. -/

/-- C8: a freshly constructed lexer reports tok_eof from getCurToken before
the first getNextToken, its line and column counters are 0, and its initial
location is (filename, 0, 0). -/
theorem C8_initial_state (fname : String) (input : List Int) :
    (initState fname input).curTok = tok_eof ∧
    (initState fname input).curLineNum = 0 ∧
    (initState fname input).curCol = 0 ∧
    (initState fname input).lastLocation = ⟨fname, 0, 0⟩ :=
  ⟨rfl, rfl, rfl, rfl⟩

/-- C2, counterexample: consume called with tok_def while the current token is
tok_eof does not return a TokenMismatch error value and leave the state
unchanged, as the claim says; it fails the assertion (modelled as
assertionFailure, a process abort). -/
theorem C2_counterexample :
    consume tok_def (initState "f" []) = ConsumeResult.assertionFailure := rfl

/-- C2, amended: whenever the expected token differs from the current token,
consume fails its assert(tok == curTok) (modelled as assertionFailure: the
process aborts); no TokenMismatch error value is produced and no advance
happens. -/
theorem C2_consume_mismatch_asserts (tok : Int) (s : LexerState)
    (h : tok ≠ s.curTok) : consume tok s = ConsumeResult.assertionFailure := by
  unfold consume
  rw [if_neg h]

/-- C2, witness for the amended theorem at a concrete state. -/
theorem C2_consume_mismatch_asserts_witness :
    consume tok_def (initState "g" [100]) = ConsumeResult.assertionFailure :=
  C2_consume_mismatch_asserts tok_def (initState "g" [100]) (by decide)

/-- C7, counterexample: on input ";\n" the third character advance (the
newline after the semicolon) takes the column counter from 1 back to 0, so the
column counter is not monotonically non-decreasing across character-advance
steps. -/
theorem C7_counterexample :
    ¬ ((getNextChar ((getNextChar ((getNextChar
          (initState "f" (strCodes ";\n"))).2)).2)).2.curCol ≥
        ((getNextChar ((getNextChar (initState "f" (strCodes ";\n"))).2)).2).curCol) := by
  decide

/-- C7, amended: across a character-advance step the line counter is
monotonically non-decreasing; when a character is consumed, the column counter
is reset to zero exactly when that character is a newline (at which point the
line counter is incremented), and otherwise it increments by one — so the
column counter itself is not monotone: it drops to zero at each newline.  When
no character is available the state is unchanged. -/
theorem C7_counters_amended (s : LexerState) (c : Int) (s1 : LexerState)
    (h : getNextChar s = (c, s1)) :
    s.curLineNum ≤ s1.curLineNum ∧
    (s.curLineBuffer = [] → s1 = s ∧ c = EOF) ∧
    (s.curLineBuffer ≠ [] →
      ((s1.curCol = 0 ↔ c = 10) ∧
       (c = 10 → s1.curLineNum = s.curLineNum + 1 ∧ s1.curCol = 0) ∧
       (c ≠ 10 → s1.curLineNum = s.curLineNum ∧ s1.curCol = s.curCol + 1))) := by
  refine ⟨?_, ?_, ?_⟩
  · rw [show s1 = (getNextChar s).2 by rw [h]]
    exact getNextChar_line s
  · intro hb
    have hee := getNextChar_empty hb
    rw [hee] at h
    injection h with h1 h2
    exact ⟨h2.symm, h1.symm⟩
  · intro hb
    cases hbuf : s.curLineBuffer with
    | nil => exact absurd hbuf hb
    | cons d rest =>
      have hfst := getNextChar_fst hbuf
      have hc : c = d := by rw [← hfst, h]
      subst hc
      have hcnt := getNextChar_counters hbuf
      rw [show s1 = (getNextChar s).2 by rw [h]]
      exact hcnt

/-- C7, witness for the amended theorem: a concrete consuming advance. -/
theorem C7_counters_amended_witness :
    (initState "f" (strCodes ";")).curLineNum ≤
      (getNextChar (initState "f" (strCodes ";"))).2.curLineNum :=
  (C7_counters_amended (initState "f" (strCodes ";"))
    (getNextChar (initState "f" (strCodes ";"))).1
    (getNextChar (initState "f" (strCodes ";"))).2 rfl).1

/-- C3, counterexample: on input "def\nfoo" the token lexed from def does not
report column 0; its recorded column is 1. -/
theorem C3_counterexample :
    (advanceN (initState "f" (strCodes "def\nfoo")) 1).curTok = tok_def ∧
    (advanceN (initState "f" (strCodes "def\nfoo")) 1).lastLocation.col ≠ 0 := by
  decide

/-- C3, amended: on input "def\nfoo" the token lexed from foo reports line 2
as claimed, but the token lexed from def reports column 1 (and line 1): the
column counter is pre-incremented when a character is fetched, so the first
column of a line is 1, not 0. -/
theorem C3_locations_amended :
    (advanceN (initState "f" (strCodes "def\nfoo")) 1).curTok = tok_def ∧
    (advanceN (initState "f" (strCodes "def\nfoo")) 1).lastLocation.line = 1 ∧
    (advanceN (initState "f" (strCodes "def\nfoo")) 1).lastLocation.col = 1 ∧
    (advanceN (initState "f" (strCodes "def\nfoo")) 2).curTok = tok_identifier ∧
    (advanceN (initState "f" (strCodes "def\nfoo")) 2).identifierStr = strCodes "foo" ∧
    (advanceN (initState "f" (strCodes "def\nfoo")) 2).lastLocation.line = 2 ∧
    (advanceN (initState "f" (strCodes "def\nfoo")) 2).lastLocation.col = 1 := by
  decide

/-- C1: the code bug, evaluated.  On input "3.14" the first getNextToken does
produce tok_number, but numStr is built with std::to_string(last_char), which
appends the decimal ASCII codes 51 46 49 52 of the characters, so strtod
parses "51464952" and getValue returns 51464952 — not the decimal value of
the literal, 3.14 = 157/50, as the claim (and the upstream LLVM lexer, which
appends the character itself) requires. -/
theorem C1_number_value_bug :
    (advanceN (initState "f" (strCodes "3.14")) 1).curTok = tok_number ∧
    getValue (advanceN (initState "f" (strCodes "3.14")) 1) = some 51464952 ∧
    strtod (strCodes "3.14") = 157 / 50 ∧ (51464952 : ℚ) ≠ 157 / 50 := by
  have h1 : (advanceN (initState "f" (strCodes "3.14")) 1).curTok = tok_number := by
    decide
  have h2 : (advanceN (initState "f" (strCodes "3.14")) 1).numVal =
      strtod [53, 49, 52, 54, 52, 57, 53, 50] := rfl
  have h3 : strtod [53, 49, 52, 54, 52, 57, 53, 50] = 51464952 := by
    norm_num [strtod, digitsVal, fracVal, isdigit]
  have h4 : strCodes "3.14" = [51, 46, 49, 52] := by decide
  have h5 : strtod [51, 46, 49, 52] = 157 / 50 := by
    norm_num [strtod, digitsVal, fracVal, isdigit]
  refine ⟨h1, ?_, by rw [h4, h5], by norm_num⟩
  unfold getValue
  rw [if_pos h1, h2, h3]

/-- C9: when the lookahead is the # of a comment whose remaining stream
contains no newline and no carriage return, the very getTok pass that starts
scanning the comment returns tok_eof itself (no restart pass is taken), and
hence so does the full getTok call. -/
theorem C9_unterminated_comment_eof (s : LexerState) (hinv : StateInv s)
    (h35 : s.last_char = 35) (hno : ∀ x ∈ streamOf s, x ≠ 10 ∧ x ≠ 13) :
    (getTokStep s).1 = some tok_eof ∧ (getTok s).1 = tok_eof := by
  have hskip : skipWs s = s := skipWs_id (by rw [h35]; rfl)
  have hcl : (commentLoop (skipAndMark s)).last_char = EOF := by
    show (commentLoopF (remChars (skipAndMark s) + 2) (skipAndMark s)).last_char = EOF
    apply commentLoopF_no_nl _ _ (le_refl _) (skipAndMark_inv hinv)
    intro x hx
    rw [skipAndMark_stream, hskip] at hx
    exact hno x hx
  have hstep : getTokStep s =
      (some tok_eof, commentLoop (skipAndMark s)) := by
    rw [getTokStep_comment (by rw [hskip]; exact h35)]
    rw [if_pos hcl]
  exact ⟨by rw [hstep], by rw [getTok_eq_step hstep]⟩

/-- C9, witness: a concrete lexer state whose lookahead starts the comment
"#ab" running to the end of the input. -/
theorem C9_unterminated_comment_eof_witness :
    (getTokStep ⟨tok_eof, ⟨"f", 1, 1⟩, [], 0, 35, 1, 1, strCodes "ab", []⟩).1 =
      some tok_eof ∧
    (getTok ⟨tok_eof, ⟨"f", 1, 1⟩, [], 0, 35, 1, 1, strCodes "ab", []⟩).1 = tok_eof :=
  C9_unterminated_comment_eof _ (by decide) (by decide) (by decide)

/-- C4: once getNextToken has returned tok_eof, every later call returns
tok_eof as well, and neither the line buffer nor the pending line source is
touched again (no further input is requested). -/
theorem C4_eof_idempotent (fname : String) (input : List Int) (n m : Nat)
    (hn : 1 ≤ n) (hnm : n ≤ m)
    (h : (advanceN (initState fname input) n).curTok = tok_eof) :
    (advanceN (initState fname input) m).curTok = tok_eof ∧
    (advanceN (initState fname input) m).pending =
      (advanceN (initState fname input) n).pending ∧
    (advanceN (initState fname input) m).curLineBuffer =
      (advanceN (initState fname input) n).curLineBuffer := by
  obtain ⟨k, rfl⟩ : ∃ k, n = k + 1 := ⟨n - 1, by omega⟩
  have hlast : (advanceN (initState fname input) (k + 1)).last_char = EOF := by
    rw [advanceN_succ, getNextToken_last]
    apply getTok_eof_last
    exact h
  have main : ∀ m2, (k + 1) ≤ m2 →
      (advanceN (initState fname input) m2).curTok = tok_eof ∧
      (advanceN (initState fname input) m2).last_char = EOF ∧
      (advanceN (initState fname input) m2).pending =
        (advanceN (initState fname input) (k + 1)).pending ∧
      (advanceN (initState fname input) m2).curLineBuffer =
        (advanceN (initState fname input) (k + 1)).curLineBuffer := by
    intro m2 hm2
    induction m2, hm2 using Nat.le_induction with
    | base => exact ⟨h, hlast, rfl, rfl⟩
    | succ m2 hm2 ih =>
      rw [advanceN_succ, getNextToken_at_eof ih.2.1]
      exact ⟨rfl, ih.2.1, ih.2.2.1, ih.2.2.2⟩
  exact ⟨(main m hnm).1, (main m hnm).2.2.1, (main m hnm).2.2.2⟩

/-- C4, witness at the empty input: the first call reaches tok_eof and the
second changes nothing. -/
theorem C4_eof_idempotent_witness :
    (advanceN (initState "f" []) 1).curTok = tok_eof ∧
    (advanceN (initState "f" []) 2).curTok = tok_eof ∧
    (advanceN (initState "f" []) 2).pending = (advanceN (initState "f" []) 1).pending ∧
    (advanceN (initState "f" []) 2).curLineBuffer =
      (advanceN (initState "f" []) 1).curLineBuffer :=
  ⟨by decide, (C4_eof_idempotent "f" [] 1 2 (by decide) (by decide) (by decide)).1,
   (C4_eof_idempotent "f" [] 1 2 (by decide) (by decide) (by decide)).2.1,
   (C4_eof_idempotent "f" [] 1 2 (by decide) (by decide) (by decide)).2.2⟩

lemma advanceN_line (fname : String) (input : List Int) : ∀ k : Nat,
    1 ≤ (advanceN (initState fname input) (k + 1)).curLineNum ∧
    1 ≤ (advanceN (initState fname input) (k + 1)).lastLocation.line := by
  intro k
  induction k with
  | zero =>
    rw [advanceN_succ]
    have hfirst : 1 ≤ (skipWs (initState fname input)).curLineNum :=
      skipWs_first_line (by rfl) (by rfl)
    have hl := getTok_line hfirst
    exact ⟨hl.1, hl.2⟩
  | succ k ih =>
    rw [advanceN_succ]
    have hfirst : 1 ≤ (skipWs (advanceN (initState fname input) (k + 1))).curLineNum :=
      le_trans ih.1 (skipWs_line _)
    have hl := getTok_line hfirst
    exact ⟨hl.1, hl.2⟩

/-- C10: the line number recorded in the location of any token produced by
getNextToken is at least 1: the primed one-newline buffer is consumed by the
initial whitespace skip before the first location is recorded, and the line
counter never decreases. -/
theorem C10_token_line_positive (fname : String) (input : List Int) (k : Nat)
    (hk : 1 ≤ k) (hne : (advanceN (initState fname input) k).curTok ≠ tok_eof) :
    1 ≤ (advanceN (initState fname input) k).lastLocation.line := by
  obtain ⟨j, rfl⟩ : ∃ j, k = j + 1 := ⟨k - 1, by omega⟩
  exact (advanceN_line fname input j).2

/-- C10, witness on input "x". -/
theorem C10_token_line_positive_witness :
    1 ≤ (advanceN (initState "f" (strCodes "x")) 1).lastLocation.line :=
  C10_token_line_positive "f" (strCodes "x") 1 (by decide) (by decide)

/-- C6: on an input made only of whitespace and line comments, every
getNextToken call returns tok_eof and nothing else. -/
theorem C6_ws_comments_only_eof (fname : String) (input : List Int) (k : Nat)
    (hnn : ∀ x ∈ input, 0 ≤ x) (hws : wsCommentsOnly input = true) (hk : 1 ≤ k) :
    (advanceN (initState fname input) k).curTok = tok_eof := by
  obtain ⟨t, hpre0⟩ := linesOfF_flatten_prefix (input.length + 1) input
  have hpre : input = (linesOf input).flatten ++ t := hpre0
  have hflat_ws : wsCommentsOnly (linesOf input).flatten = true := by
    apply wsCommentsOnly_prefix ((linesOf input).flatten).length _ t (le_refl _)
    rw [← hpre]
    exact hws
  have hflat_nn : ∀ x ∈ (linesOf input).flatten, 0 ≤ x := by
    intro x hx
    apply hnn
    rw [hpre]
    exact List.mem_append.mpr (Or.inl hx)
  have hcom : WsCom (linesOf input).flatten :=
    wsCom_of_wsc _ _ (le_refl _) hflat_nn hflat_ws
  have hstream : WsCom ((initState fname input).last_char ::
      streamOf (initState fname input)) := by
    rw [initState_stream]
    exact WsCom.ws (by rfl) (WsCom.ws (by rfl) hcom)
  have hfirst := getTokF_wsCom (remChars (initState fname input))
    (remChars (initState fname input) + 2) (initState fname input) (le_refl _)
    (le_refl _) (initState_inv fname input) (Or.inr hstream)
  have h1 : (advanceN (initState fname input) 1).curTok = tok_eof ∧
      (advanceN (initState fname input) 1).last_char = EOF := by
    rw [advanceN_succ]
    exact ⟨hfirst.1, hfirst.2⟩
  obtain ⟨j, rfl⟩ : ∃ j, k = j + 1 := ⟨k - 1, by omega⟩
  have main : ∀ j2 : Nat, (advanceN (initState fname input) (j2 + 1)).curTok = tok_eof ∧
      (advanceN (initState fname input) (j2 + 1)).last_char = EOF := by
    intro j2
    induction j2 with
    | zero => exact h1
    | succ j2 ih =>
      rw [advanceN_succ, getNextToken_at_eof ih.2]
      exact ⟨rfl, ih.2⟩
  exact (main j).1

/-- C6, witness on the spec's concrete input, a lone comment line. -/
theorem C6_ws_comments_only_eof_witness :
    (advanceN (initState "f" (strCodes "# comment only\n")) 1).curTok = tok_eof :=
  C6_ws_comments_only_eof "f" (strCodes "# comment only\n") 1 (by decide) (by decide)
    (by decide)

lemma getTokStep_ident {s : LexerState} (halpha : isalpha (skipWs s).last_char = true) :
    getTokStep s =
      (if (identLoop [(skipWs s).last_char] (skipAndMark s)).1 = strCodes "return" then
        (some tok_return, { (identLoop [(skipWs s).last_char] (skipAndMark s)).2 with
          identifierStr := (identLoop [(skipWs s).last_char] (skipAndMark s)).1 })
      else if (identLoop [(skipWs s).last_char] (skipAndMark s)).1 = strCodes "def" then
        (some tok_def, { (identLoop [(skipWs s).last_char] (skipAndMark s)).2 with
          identifierStr := (identLoop [(skipWs s).last_char] (skipAndMark s)).1 })
      else if (identLoop [(skipWs s).last_char] (skipAndMark s)).1 = strCodes "var" then
        (some tok_var, { (identLoop [(skipWs s).last_char] (skipAndMark s)).2 with
          identifierStr := (identLoop [(skipWs s).last_char] (skipAndMark s)).1 })
      else
        (some tok_identifier, { (identLoop [(skipWs s).last_char] (skipAndMark s)).2 with
          identifierStr := (identLoop [(skipWs s).last_char] (skipAndMark s)).1 })) := by
  simp only [getTokStep]
  rw [if_pos (by rw [skipAndMark_last]; exact halpha)]
  rfl

lemma getTok_ident_result {s : LexerState} {w : List Int}
    (halpha : isalpha (skipWs s).last_char = true)
    (hp1 : (identLoop [(skipWs s).last_char] (skipAndMark s)).1 = w) :
    (getTok s).1 = (if w = strCodes "return" then tok_return
      else if w = strCodes "def" then tok_def
      else if w = strCodes "var" then tok_var else tok_identifier) ∧
    (getTok s).2.identifierStr = w := by
  have hstep := getTokStep_ident halpha
  rw [hp1] at hstep
  split_ifs at hstep with h1 h2 h3
  · rw [getTok_eq_step hstep]
    exact ⟨by rw [if_pos h1], rfl⟩
  · rw [getTok_eq_step hstep]
    exact ⟨by rw [if_neg h1, if_pos h2], rfl⟩
  · rw [getTok_eq_step hstep]
    exact ⟨by rw [if_neg h1, if_neg h2, if_pos h3], rfl⟩
  · rw [getTok_eq_step hstep]
    exact ⟨by rw [if_neg h1, if_neg h2, if_neg h3], rfl⟩

/-- C5: an identifier-shaped input is lexed to the matching keyword token for
exactly return, def and var, and to tok_identifier otherwise; identifierStr
always holds the accumulated text, so the identifier payload equals the input
exactly. -/
theorem C5_keywords_and_identifiers (fname : String) (w : List Int)
    (hw : identShaped w = true) :
    (advanceN (initState fname w) 1).curTok =
      (if w = strCodes "return" then tok_return
       else if w = strCodes "def" then tok_def
       else if w = strCodes "var" then tok_var
       else tok_identifier) ∧
    (advanceN (initState fname w) 1).identifierStr = w := by
  cases w with
  | nil => simp [identShaped] at hw
  | cons c rest =>
    simp only [identShaped, Bool.and_eq_true] at hw
    obtain ⟨hc, hrest⟩ := hw
    have hprops := isalpha_props hc
    have hrestprops : ∀ x ∈ rest, (isalnum x || decide (x = 95)) = true :=
      List.all_eq_true.mp hrest
    have hneq : ∀ x ∈ c :: rest, x ≠ 0 ∧ x ≠ 10 := by
      intro x hx
      rcases List.mem_cons.mp hx with hx | hx
      · rw [hx]; exact ⟨hprops.2.2.1, hprops.2.1⟩
      · have h2 := identChar_props (hrestprops x hx)
        exact ⟨h2.2.2, h2.2.1⟩
    have hlines : linesOf (c :: rest) = [c :: rest] := linesOf_single (by simp) hneq
    have hstream : streamOf (initState fname (c :: rest)) = 10 :: (c :: rest) := by
      rw [initState_stream, hlines]
      simp
    have hinv := initState_inv fname (c :: rest)
    have hwalk := skipWsF_walk [10] (remChars (initState fname (c :: rest)) + 2)
      (initState fname (c :: rest)) c rest (le_refl _) hinv (by rfl)
      (by rw [hstream]; rfl)
      (by intro x hx; simp at hx; rw [hx]; rfl)
      hprops.2.2.2.1
    have hlast : (skipWs (initState fname (c :: rest))).last_char = c := hwalk.1
    have hstr2 : streamOf (skipWs (initState fname (c :: rest))) = rest := hwalk.2.1
    have hinv2 : StateInv (skipWs (initState fname (c :: rest))) := hwalk.2.2
    have halpha : isalpha (skipWs (initState fname (c :: rest))).last_char = true := by
      rw [hlast]
      exact hc
    have hspec := identLoopF_spec rest
      (remChars (skipAndMark (initState fname (c :: rest))) + 2)
      [c] (skipAndMark (initState fname (c :: rest))) [] (le_refl _) hinv2
      (by rw [skipAndMark_stream, hstr2]; simp) hrestprops (Or.inl rfl)
    have hp1 : (identLoop [(skipWs (initState fname (c :: rest))).last_char]
        (skipAndMark (initState fname (c :: rest)))).1 = c :: rest := by
      rw [hlast]
      exact hspec
    have hres := getTok_ident_result halpha hp1
    rw [advanceN_succ]
    exact ⟨hres.1, hres.2⟩

/-- C5, witness at the identifier foo. -/
theorem C5_keywords_and_identifiers_witness :
    (advanceN (initState "f" (strCodes "foo")) 1).curTok =
      (if strCodes "foo" = strCodes "return" then tok_return
       else if strCodes "foo" = strCodes "def" then tok_def
       else if strCodes "foo" = strCodes "var" then tok_var
       else tok_identifier) ∧
    (advanceN (initState "f" (strCodes "foo")) 1).identifierStr = strCodes "foo" :=
  C5_keywords_and_identifiers "f" (strCodes "foo") (by decide)

end ToyLexer
